import Mathlib

/-!
Verification of the pushgateway-upsetter core: the per-group liveness
detector (package tracking) and the per-tick reconciliation loop (main),
together with the Pushgateway metrics-group helpers (Key, LabelNamesMatch,
Filter, MinTimestamp, MaxTimestamp).

Modelling conventions: Go strings are lists of characters; Go time.Time
values are integers, with 0 playing the role of Go's zero Time (IsZero);
time.Duration values are integers in the same unit; Go maps are
association lists.
-/

/-- Go strings, modelled as lists of characters. -/
abbrev Str : Type := List Char

/-- The label name "job". -/
def jobS : Str := ['j', 'o', 'b']

/-- The label name "instance". -/
def instanceS : Str := ['i', 'n', 's', 't', 'a', 'n', 'c', 'e']

/-- The metric name "up". -/
def upS : Str := ['u', 'p']

/-- The metric name "push_time_seconds". -/
def pushTimeS : Str :=
  ['p', 'u', 's', 'h', '_', 't', 'i', 'm', 'e', '_',
   's', 'e', 'c', 'o', 'n', 'd', 's']

/-- The metric name "push_failure_time_seconds". -/
def pushFailureTimeS : Str :=
  ['p', 'u', 's', 'h', '_', 'f', 'a', 'i', 'l', 'u', 'r', 'e', '_',
   't', 'i', 'm', 'e', '_', 's', 'e', 'c', 'o', 'n', 'd', 's']

/-- An individual metric in a Metrics map; only its timestamp is relevant. -/
structure Metric where
  Timestamp : Int
deriving DecidableEq

/-- The individual metrics of a MetricsGroup: a map from metric name to
metric, modelled as an association list. -/
abbrev Metrics : Type := List (Str × Metric)

/-- Filter returns a copy of the Metrics map with the named metrics
removed (pushgateway.Metrics.Filter). -/
def Metrics.Filter (m : Metrics) (names : List Str) : Metrics :=
  m.filter (fun x => decide (x.1 ∉ names))

/-- MaxTimestamp returns the highest metric timestamp, or the zero time
(pushgateway.Metrics.MaxTimestamp). -/
def Metrics.MaxTimestamp (m : Metrics) : Int :=
  match m.map (fun x => x.2.Timestamp) with
  | [] => 0
  | t :: ts => ts.foldl max t

/-- MinTimestamp returns the lowest metric timestamp, or the zero time
(pushgateway.Metrics.MinTimestamp). -/
def Metrics.MinTimestamp (m : Metrics) : Int :=
  match m.map (fun x => x.2.Timestamp) with
  | [] => 0
  | t :: ts => ts.foldl min t

/-- The up state and timing data of a metrics group
(tracking.GroupState). -/
structure GroupState where
  up : Bool
  timestamp : Int
  timeout : Int
deriving DecidableEq

/-- NewGroupState seeds a detector with a timestamp; up and timeout take
Go zero values (tracking.NewGroupState). -/
def NewGroupState (timestamp : Int) : GroupState :=
  { up := false, timestamp := timestamp, timeout := 0 }

/-- IsUp returns the up state at the given current time
(tracking.GroupState.IsUp). -/
def GroupState.IsUp (gs : GroupState) (now : Int) : Bool :=
  if gs.timestamp = 0 ∨ gs.timeout = 0 then
    false
  else
    let expiration := gs.timestamp + gs.timeout
    decide (now < expiration)

/-- Update ingests a heartbeat timestamp at current time `now`, returning
the new state and whether the up state changed
(tracking.GroupState.Update). Go's int64 duration division is truncated
division, Int.tdiv. -/
def GroupState.Update (gs : GroupState) (timestamp now : Int) :
    GroupState × Bool :=
  let wasUp := gs.up
  let gs1 :=
    if gs.timestamp < timestamp ∧ gs.timestamp ≠ 0 then
      let delta := timestamp - gs.timestamp
      { gs with timeout := delta + Int.tdiv delta 2 }
    else
      gs
  let gs2 := { gs1 with timestamp := timestamp }
  let gs3 := { gs2 with up := gs2.IsUp now }
  (gs3, wasUp != gs3.up)

/-- C1: Update sets `timeout = delta + delta/2` with
`delta = t - lastTimestamp` exactly when the new timestamp is strictly
after the stored one and the stored one is not the zero sentinel; in
every other case timeout is unchanged; and lastTimestamp is
unconditionally set to the new timestamp. -/
theorem update_timeout_spec (gs : GroupState) (t now : Int) :
    ((gs.timestamp < t ∧ gs.timestamp ≠ 0) →
      (gs.Update t now).1.timeout =
        (t - gs.timestamp) + Int.tdiv (t - gs.timestamp) 2) ∧
    (¬(gs.timestamp < t ∧ gs.timestamp ≠ 0) →
      (gs.Update t now).1.timeout = gs.timeout) ∧
    (gs.Update t now).1.timestamp = t := by
  unfold GroupState.Update
  by_cases h : gs.timestamp < t ∧ gs.timestamp ≠ 0 <;>
    simp [h]

/-- Witness for C1 at concrete states: a strictly later timestamp on a
non-sentinel state sets the adaptive timeout, a non-increasing timestamp
leaves it unchanged, and the timestamp is always overwritten. -/
theorem update_timeout_spec_witness :
    ((⟨false, 5, 0⟩ : GroupState).Update 9 0).1.timeout =
      (9 - 5) + Int.tdiv (9 - 5) 2 ∧
    ((⟨true, 5, 7⟩ : GroupState).Update 3 0).1.timeout =
      (⟨true, 5, 7⟩ : GroupState).timeout ∧
    ((⟨false, 5, 0⟩ : GroupState).Update 9 0).1.timestamp = 9 :=
  ⟨(update_timeout_spec ⟨false, 5, 0⟩ 9 0).1 (by decide),
   (update_timeout_spec ⟨true, 5, 7⟩ 3 0).2.1 (by decide),
   (update_timeout_spec ⟨false, 5, 0⟩ 9 0).2.2⟩

/-- C2: IsUp is false whenever the stored timestamp is the zero sentinel
or the timeout is zero; otherwise it is true iff `now` is strictly
before `lastTimestamp + timeout`; in particular (within the non-sentinel
case, as the first clause forces) with a positive timeout it is true at
`now = lastTimestamp` and false at `lastTimestamp + timeout` or later. -/
theorem isUp_spec (gs : GroupState) (now : Int) :
    ((gs.timestamp = 0 ∨ gs.timeout = 0) → gs.IsUp now = false) ∧
    (gs.timestamp ≠ 0 → gs.timeout ≠ 0 →
      (gs.IsUp now = true ↔ now < gs.timestamp + gs.timeout)) ∧
    (gs.timestamp ≠ 0 → 0 < gs.timeout → gs.IsUp gs.timestamp = true) ∧
    (gs.timestamp ≠ 0 → 0 < gs.timeout → ∀ t : Int,
      gs.timestamp + gs.timeout ≤ t → gs.IsUp t = false) := by
  refine ⟨fun h => by simp [GroupState.IsUp, h], ?_, ?_, ?_⟩
  · intro h1 h2
    simp [GroupState.IsUp, h1, h2]
  · intro h1 h2
    simp only [GroupState.IsUp, h1, false_or]
    have h2' : gs.timeout ≠ 0 := by omega
    simp [h2']
    omega
  · intro h1 h2 t ht
    have h2' : gs.timeout ≠ 0 := by omega
    simp [GroupState.IsUp, h1, h2']
    omega

/-- Witness for C2 at a concrete state with timestamp 10 and timeout 4:
the sentinel state is down, the live window is exactly [10, 14), the
instant of the last heartbeat is up, and the expiry instant is down. -/
theorem isUp_spec_witness :
    (⟨false, 0, 4⟩ : GroupState).IsUp 2 = false ∧
    ((⟨false, 10, 4⟩ : GroupState).IsUp 12 = true ↔
      (12 : Int) < 10 + 4) ∧
    (⟨false, 10, 4⟩ : GroupState).IsUp 10 = true ∧
    (⟨false, 10, 4⟩ : GroupState).IsUp 14 = false :=
  ⟨(isUp_spec ⟨false, 0, 4⟩ 2).1 (Or.inl rfl),
   (isUp_spec ⟨false, 10, 4⟩ 12).2.1 (by decide) (by decide),
   (isUp_spec ⟨false, 10, 4⟩ 10).2.2.1 (by decide) (by decide),
   (isUp_spec ⟨false, 10, 4⟩ 14).2.2.2 (by decide) (by decide) 14
     (by decide)⟩

/-- C3: Update recomputes the verdict with the IsUp rule at `now`,
stores it in the up field, and returns true exactly when the recomputed
verdict differs from the verdict stored immediately before the call. -/
theorem update_verdict_spec (gs : GroupState) (t now : Int) :
    (gs.Update t now).1.up = (gs.Update t now).1.IsUp now ∧
    (gs.Update t now).2 = (gs.up != (gs.Update t now).1.up) :=
  ⟨rfl, rfl⟩

/-- C10: on an empty Metrics map both MinTimestamp and MaxTimestamp
return the zero time; a detector seeded with it carries the sentinel
timestamp; and an Update with the zero timestamp (on any state whose
timestamp is non-negative, as all Go times here are) leaves the timeout
unchanged, stores the sentinel, and computes the verdict false — such
observations can never establish a timeout. -/
theorem empty_metrics_zero_spec :
    Metrics.MinTimestamp [] = 0 ∧ Metrics.MaxTimestamp [] = 0 ∧
    (NewGroupState (Metrics.MinTimestamp [])).timestamp = 0 ∧
    (NewGroupState (Metrics.MinTimestamp [])).timeout = 0 ∧
    (∀ gs : GroupState, ∀ now : Int, 0 ≤ gs.timestamp →
      (gs.Update (Metrics.MinTimestamp []) now).1.timeout = gs.timeout ∧
      (gs.Update (Metrics.MinTimestamp []) now).1.timestamp = 0 ∧
      (gs.Update (Metrics.MinTimestamp []) now).1.up = false) := by
  refine ⟨rfl, rfl, rfl, rfl, fun gs now h => ?_⟩
  have hc : ¬(gs.timestamp < (0 : Int) ∧ gs.timestamp ≠ 0) := by omega
  unfold GroupState.Update
  simp [hc, GroupState.IsUp, Metrics.MinTimestamp]

/-- Witness for C10: updating a concrete positive-timestamp state with
the empty-map timestamp keeps its timeout, stores the sentinel, and
reports down. -/
theorem empty_metrics_zero_spec_witness :
    ((⟨true, 7, 9⟩ : GroupState).Update (Metrics.MinTimestamp []) 3).1.timeout =
      (⟨true, 7, 9⟩ : GroupState).timeout ∧
    ((⟨true, 7, 9⟩ : GroupState).Update (Metrics.MinTimestamp []) 3).1.timestamp = 0 ∧
    ((⟨true, 7, 9⟩ : GroupState).Update (Metrics.MinTimestamp []) 3).1.up = false :=
  empty_metrics_zero_spec.2.2.2.2 ⟨true, 7, 9⟩ 3 (by decide)

/-- The label set of a metrics group: a map from label name to label
value, modelled as an association list. -/
abbrev Labels : Type := List (Str × Str)

/-- Reading a Go map: the first binding for the key, if any. -/
def lookupKey {β : Type} (k : Str) : List (Str × β) → Option β
  | [] => none
  | (k', v) :: rest => if k' = k then some v else lookupKey k rest

/-- Go map indexing g.Labels[name], with the string zero value for a
missing key. -/
def getLabel (labels : Labels) (n : Str) : Str :=
  (lookupKey n labels).getD []

/-- A group of metrics from the Query API (pushgateway.MetricsGroup). -/
structure MetricsGroup where
  Labels : Labels
  Metrics : Metrics

/-- strings.Join of the parts with the "/" separator. -/
def slashJoin : List Str → Str
  | [] => []
  | [p] => p
  | p :: q :: ps => p ++ '/' :: slashJoin (q :: ps)

/-- The label names other than "job", in map order (the loop collecting
names inside pushgateway.MetricsGroup.Key). -/
def otherNames (labels : Labels) : List Str :=
  (labels.map Prod.fst).filter (fun n => decide (n ≠ jobS))

/-- The non-job label names sorted lexicographically (slices.Sort inside
pushgateway.MetricsGroup.Key; Go byte order on valid UTF-8 agrees with
the codepoint order on lists of characters). -/
def sortedOtherNames (labels : Labels) : List Str :=
  (otherNames labels).insertionSort (· ≤ ·)

/-- The loop appending name/value pairs to the parts slice inside
pushgateway.MetricsGroup.Key. -/
def interleavePairs (labels : Labels) : List Str → List Str
  | [] => []
  | n :: ns => n :: getLabel labels n :: interleavePairs labels ns

/-- The full parts slice built by pushgateway.MetricsGroup.Key: "job",
its value, then the remaining names interleaved with their values. -/
def keyParts (labels : Labels) (job : Str) : List Str :=
  jobS :: job :: interleavePairs labels (sortedOtherNames labels)

/-- Key returns a path containing label names and values, starting with
"job" (pushgateway.MetricsGroup.Key). The source panics when the job
label is missing; the panic is modelled as none. -/
def MetricsGroup.Key (g : MetricsGroup) : Option Str :=
  match lookupKey jobS g.Labels with
  | none => none
  | some job => some (slashJoin (keyParts g.Labels job))

/-- LabelNamesMatch returns true if the group label names and the
provided names match (pushgateway.MetricsGroup.LabelNamesMatch): every
provided name is present and the label map has exactly as many entries. -/
def MetricsGroup.LabelNamesMatch (g : MetricsGroup) (names : List Str) : Bool :=
  names.all (fun n => (lookupKey n g.Labels).isSome) &&
    (g.Labels.length == names.length)

theorem lookupKey_isSome_iff {β : Type} (k : Str) (l : List (Str × β)) :
    (lookupKey k l).isSome = true ↔ k ∈ l.map Prod.fst := by
  induction l with
  | nil => simp [lookupKey]
  | cons p rest ih =>
    obtain ⟨k', v⟩ := p
    show (if k' = k then some v else lookupKey k rest).isSome = true ↔ _
    simp only [List.map_cons, List.mem_cons]
    by_cases h : k' = k
    · subst h
      rw [if_pos rfl]
      exact ⟨fun _ => Or.inl rfl, fun _ => rfl⟩
    · rw [if_neg h, ih]
      constructor
      · exact Or.inr
      · rintro (rfl | hm)
        · exact absurd rfl h
        · exact hm

theorem lookupKey_eq_none_iff {β : Type} (k : Str) (l : List (Str × β)) :
    lookupKey k l = none ↔ k ∉ l.map Prod.fst := by
  rw [← lookupKey_isSome_iff]
  cases lookupKey k l <;> simp

theorem mem_of_lookupKey_eq_some {β : Type} {k : Str} {v : β}
    {l : List (Str × β)} (h : lookupKey k l = some v) : (k, v) ∈ l := by
  induction l with
  | nil => simp [lookupKey] at h
  | cons p rest ih =>
    obtain ⟨k', v'⟩ := p
    by_cases hk : k' = k
    · subst hk
      simp [lookupKey] at h
      subst h
      exact List.mem_cons_self _ _
    · simp only [lookupKey, if_neg hk] at h
      exact List.mem_cons_of_mem _ (ih h)

theorem lookupKey_eq_some_of_mem {β : Type} {k : Str} {v : β}
    {l : List (Str × β)} (hnd : (l.map Prod.fst).Nodup)
    (h : (k, v) ∈ l) : lookupKey k l = some v := by
  induction l with
  | nil => simp at h
  | cons p rest ih =>
    obtain ⟨k', v'⟩ := p
    simp only [List.map_cons, List.nodup_cons] at hnd
    rcases List.mem_cons.mp h with heq | hmem
    · cases heq
      simp [lookupKey]
    · have hk : k' ≠ k := by
        rintro rfl
        exact hnd.1 (List.mem_map.mpr ⟨(k', v), hmem, rfl⟩)
      simp only [lookupKey, if_neg hk]
      exact ih hnd.2 hmem

theorem lookupKey_perm {β : Type} {l1 l2 : List (Str × β)}
    (hp : l1.Perm l2) (hnd : (l1.map Prod.fst).Nodup) (k : Str) :
    lookupKey k l1 = lookupKey k l2 := by
  have hnd2 : (l2.map Prod.fst).Nodup := ((hp.map Prod.fst).nodup_iff).mp hnd
  cases hcase : lookupKey k l1 with
  | none =>
    have hnm := (lookupKey_eq_none_iff k l1).mp hcase
    symm
    rw [lookupKey_eq_none_iff]
    exact fun hm => hnm ((hp.map Prod.fst).mem_iff.mpr hm)
  | some v =>
    have hm := mem_of_lookupKey_eq_some hcase
    exact (lookupKey_eq_some_of_mem hnd2 (hp.mem_iff.mp hm)).symm

/-- Splitting a character list at the separator, the inverse of
slashJoin on separator-free parts. -/
def splitSlash : Str → List Str
  | [] => [[]]
  | c :: cs =>
    if c = '/' then [] :: splitSlash cs
    else
      match splitSlash cs with
      | [] => [[c]]
      | p :: ps => (c :: p) :: ps

theorem splitSlash_ne_nil (s : Str) : splitSlash s ≠ [] := by
  induction s with
  | nil => simp [splitSlash]
  | cons c cs ih =>
    by_cases h : c = '/'
    · simp [splitSlash, h]
    · simp only [splitSlash, if_neg h]
      cases hcs : splitSlash cs <;> simp

theorem splitSlash_no_slash {p : Str} (h : '/' ∉ p) : splitSlash p = [p] := by
  induction p with
  | nil => rfl
  | cons c cs ih =>
    have hc : c ≠ '/' := fun e => h (e ▸ List.mem_cons_self _ _)
    have hcs : '/' ∉ cs := fun hm => h (List.mem_cons_of_mem _ hm)
    simp only [splitSlash, if_neg hc, ih hcs]

theorem splitSlash_append {p : Str} (r : Str) (h : '/' ∉ p) :
    splitSlash (p ++ '/' :: r) = p :: splitSlash r := by
  induction p with
  | nil => simp [splitSlash]
  | cons c cs ih =>
    have hc : c ≠ '/' := fun e => h (e ▸ List.mem_cons_self _ _)
    have hcs : '/' ∉ cs := fun hm => h (List.mem_cons_of_mem _ hm)
    simp only [List.cons_append, splitSlash, if_neg hc]
    rw [List.append_eq, ih hcs]

theorem splitSlash_slashJoin : ∀ {ps : List Str}, ps ≠ [] →
    (∀ p ∈ ps, '/' ∉ p) → splitSlash (slashJoin ps) = ps := by
  intro ps
  induction ps with
  | nil => intro h; exact absurd rfl h
  | cons p rest ih =>
    intro _ hfree
    cases rest with
    | nil =>
      exact splitSlash_no_slash (hfree p (List.mem_cons_self _ _))
    | cons q qs =>
      have h1 : slashJoin (p :: q :: qs) = p ++ '/' :: slashJoin (q :: qs) := rfl
      rw [h1, splitSlash_append _ (hfree p (List.mem_cons_self _ _))]
      rw [ih (by simp) (fun x hx => hfree x (List.mem_cons_of_mem _ hx))]

theorem slashJoin_inj {ps qs : List Str} (hps : ps ≠ []) (hqs : qs ≠ [])
    (h1 : ∀ p ∈ ps, '/' ∉ p) (h2 : ∀ p ∈ qs, '/' ∉ p)
    (h : slashJoin ps = slashJoin qs) : ps = qs := by
  have e1 := splitSlash_slashJoin hps h1
  have e2 := splitSlash_slashJoin hqs h2
  rw [← e1, ← e2, h]

theorem interleavePairs_congr {l1 l2 : Labels}
    (hg : ∀ n, getLabel l1 n = getLabel l2 n) :
    ∀ ns : List Str, interleavePairs l1 ns = interleavePairs l2 ns := by
  intro ns
  induction ns with
  | nil => rfl
  | cons n ns ih => simp only [interleavePairs, hg n, ih]

theorem otherNames_perm {l1 l2 : Labels} (hp : l1.Perm l2) :
    (otherNames l1).Perm (otherNames l2) :=
  (hp.map Prod.fst).filter _

theorem sortedOtherNames_eq {l1 l2 : Labels} (hp : l1.Perm l2) :
    sortedOtherNames l1 = sortedOtherNames l2 :=
  List.eq_of_perm_of_sorted
    (((List.perm_insertionSort _ _).trans (otherNames_perm hp)).trans
      (List.perm_insertionSort _ _).symm)
    (List.sorted_insertionSort _ _) (List.sorted_insertionSort _ _)

/-- C7: for label maps with the same name/value pairs, regardless of
order, Key is identical; and the key is the job value first, then the
remaining names in lexicographic order interleaved with their values,
slash-joined. -/
theorem key_order_independent (l1 l2 : Labels) (m1 m2 : Metrics)
    (hp : l1.Perm l2) (hnd : (l1.map Prod.fst).Nodup) :
    MetricsGroup.Key ⟨l1, m1⟩ = MetricsGroup.Key ⟨l2, m2⟩ ∧
    (∀ jv, lookupKey jobS l1 = some jv →
      MetricsGroup.Key ⟨l1, m1⟩ =
        some (slashJoin (jobS :: jv ::
          interleavePairs l1 (sortedOtherNames l1)))) := by
  constructor
  · have hl : lookupKey jobS l1 = lookupKey jobS l2 :=
      lookupKey_perm hp hnd jobS
    unfold MetricsGroup.Key
    rw [← hl]
    cases hj : lookupKey jobS l1 with
    | none => rfl
    | some jv =>
      have hg : ∀ n, getLabel l1 n = getLabel l2 n := fun n => by
        unfold getLabel
        rw [lookupKey_perm hp hnd n]
      have hs : keyParts l1 jv = keyParts l2 jv := by
        unfold keyParts
        rw [sortedOtherNames_eq hp, interleavePairs_congr hg]
      show some (slashJoin (keyParts l1 jv)) = some (slashJoin (keyParts l2 jv))
      rw [hs]
  · intro jv hj
    unfold MetricsGroup.Key keyParts
    rw [hj]

/-- Witness for C7: two concrete two-label maps listing job and instance
in opposite orders produce the same key, of the stated shape. -/
theorem key_order_independent_witness :
    MetricsGroup.Key ⟨[(jobS, ['a']), (instanceS, ['b'])], []⟩ =
      MetricsGroup.Key ⟨[(instanceS, ['b']), (jobS, ['a'])], []⟩ ∧
    MetricsGroup.Key ⟨[(jobS, ['a']), (instanceS, ['b'])], []⟩ =
      some (slashJoin (jobS :: ['a'] ::
        interleavePairs [(jobS, ['a']), (instanceS, ['b'])]
          (sortedOtherNames [(jobS, ['a']), (instanceS, ['b'])]))) :=
  ⟨(key_order_independent [(jobS, ['a']), (instanceS, ['b'])]
      [(instanceS, ['b']), (jobS, ['a'])] [] []
      (by decide) (by decide)).1,
   (key_order_independent [(jobS, ['a']), (instanceS, ['b'])]
      [(instanceS, ['b']), (jobS, ['a'])] [] []
      (by decide) (by decide)).2 ['a'] (by decide)⟩

/-- First label set of the C4 counterexample: its instance value embeds
the separator. -/
def cexLabels1 : Labels :=
  [(jobS, ['a']), (instanceS, ['b', '/'] ++ instanceS ++ ['/', 'c'])]

/-- Second label set of the C4 counterexample: its job value embeds the
separator, producing the same slash-joined key. -/
def cexLabels2 : Labels :=
  [(jobS, ['a', '/'] ++ instanceS ++ ['/', 'b']), (instanceS, ['c'])]

/-- C4 counterexample: two label sets, each containing the job label,
that differ in the value of the job label yet receive identical keys,
because label values may contain the separator and Key does not escape
it. -/
theorem key_injective_cex :
    MetricsGroup.Key ⟨cexLabels1, []⟩ = MetricsGroup.Key ⟨cexLabels2, []⟩ ∧
    (lookupKey jobS cexLabels1).isSome = true ∧
    (lookupKey jobS cexLabels2).isSome = true ∧
    lookupKey jobS cexLabels1 ≠ lookupKey jobS cexLabels2 := by
  decide

/-- A string not containing the key separator. -/
abbrev SlashFree (s : Str) : Prop := '/' ∉ s

theorem mem_names_of_mem_sortedOtherNames {l : Labels} {n : Str}
    (h : n ∈ sortedOtherNames l) : n ∈ l.map Prod.fst := by
  unfold sortedOtherNames at h
  have h1 := (List.mem_insertionSort _).mp h
  unfold otherNames at h1
  exact List.mem_of_mem_filter h1

theorem getLabel_slashFree {l : Labels} {n : Str}
    (hfree : ∀ p ∈ l, SlashFree p.1 ∧ SlashFree p.2)
    (hn : n ∈ l.map Prod.fst) : SlashFree (getLabel l n) := by
  have hs : (lookupKey n l).isSome = true := (lookupKey_isSome_iff n l).mpr hn
  obtain ⟨v, hv⟩ := Option.isSome_iff_exists.mp hs
  have hm := mem_of_lookupKey_eq_some hv
  unfold getLabel
  rw [hv]
  exact (hfree _ hm).2

theorem name_slashFree {l : Labels} {n : Str}
    (hfree : ∀ p ∈ l, SlashFree p.1 ∧ SlashFree p.2)
    (hn : n ∈ l.map Prod.fst) : SlashFree n := by
  obtain ⟨p, hp, he⟩ := List.mem_map.mp hn
  exact he ▸ (hfree p hp).1

theorem interleavePairs_slashFree {l : Labels}
    (hfree : ∀ p ∈ l, SlashFree p.1 ∧ SlashFree p.2) :
    ∀ ns : List Str, (∀ n ∈ ns, n ∈ l.map Prod.fst) →
      ∀ s ∈ interleavePairs l ns, SlashFree s := by
  intro ns
  induction ns with
  | nil =>
    intro _ s hs
    simp [interleavePairs] at hs
  | cons n ns ih =>
    intro hns s hs
    have hn : n ∈ l.map Prod.fst := hns n (List.mem_cons_self _ _)
    rcases List.mem_cons.mp hs with rfl | hs
    · exact name_slashFree hfree hn
    · rcases List.mem_cons.mp hs with rfl | hs
      · exact getLabel_slashFree hfree hn
      · exact ih (fun x hx => hns x (List.mem_cons_of_mem _ hx)) s hs

theorem keyParts_slashFree {l : Labels} {jv : Str}
    (hfree : ∀ p ∈ l, SlashFree p.1 ∧ SlashFree p.2)
    (hj : lookupKey jobS l = some jv) :
    ∀ s ∈ keyParts l jv, SlashFree s := by
  intro s hs
  unfold keyParts at hs
  rcases List.mem_cons.mp hs with rfl | hs
  · exact (by decide : ('/' : Char) ∉ jobS)
  · rcases List.mem_cons.mp hs with rfl | hs
    · exact (hfree _ (mem_of_lookupKey_eq_some hj)).2
    · exact interleavePairs_slashFree hfree _
        (fun n hn => mem_names_of_mem_sortedOtherNames hn) s hs

theorem interleavePairs_inj {l1 l2 : Labels} :
    ∀ ns1 ns2 : List Str,
      interleavePairs l1 ns1 = interleavePairs l2 ns2 →
      ns1.map (fun n => (n, getLabel l1 n)) =
        ns2.map (fun n => (n, getLabel l2 n)) := by
  intro ns1
  induction ns1 with
  | nil =>
    intro ns2 h
    cases ns2 with
    | nil => rfl
    | cons m ms => exact absurd h (by simp [interleavePairs])
  | cons n ns ih =>
    intro ns2 h
    cases ns2 with
    | nil => exact absurd h (by simp [interleavePairs])
    | cons m ms =>
      unfold interleavePairs at h
      injection h with h1 h
      injection h with h2 h
      subst h1
      simp only [List.map_cons, h2, ih ms h]

theorem filter_job_single {l : Labels} {jv : Str}
    (hnd : (l.map Prod.fst).Nodup) (hj : lookupKey jobS l = some jv) :
    l.filter (fun p => decide (p.1 = jobS)) = [(jobS, jv)] := by
  induction l with
  | nil => simp [lookupKey] at hj
  | cons q rest ih =>
    obtain ⟨k, v⟩ := q
    simp only [List.map_cons, List.nodup_cons] at hnd
    by_cases hk : k = jobS
    · subst hk
      have hv : v = jv := by simpa [lookupKey] using hj
      subst hv
      have hrest : rest.filter (fun p => decide (p.1 = jobS)) = [] := by
        rw [List.filter_eq_nil_iff]
        intro a ha hpa
        exact hnd.1 (List.mem_map.mpr ⟨a, ha, by simpa using hpa⟩)
      simp [List.filter_cons, hrest]
    · have hj' : lookupKey jobS rest = some jv := by
        simpa [lookupKey, hk] using hj
      simp [List.filter_cons, hk, ih hnd.2 hj']

theorem canonical_perm {l : Labels} {jv : Str}
    (hnd : (l.map Prod.fst).Nodup) (hj : lookupKey jobS l = some jv) :
    l.Perm ((jobS, jv) ::
      (sortedOtherNames l).map (fun n => (n, getLabel l n))) := by
  have h1 : ((sortedOtherNames l).map (fun n => (n, getLabel l n))).Perm
      ((otherNames l).map (fun n => (n, getLabel l n))) :=
    (List.perm_insertionSort _ _).map _
  have h2 : (otherNames l).map (fun n => (n, getLabel l n)) =
      l.filter (fun p => decide (p.1 ≠ jobS)) := by
    unfold otherNames
    rw [List.filter_map, List.map_map]
    have h3 : ∀ p ∈ l.filter
        ((fun n => decide (n ≠ jobS)) ∘ Prod.fst),
        ((fun n => (n, getLabel l n)) ∘ Prod.fst) p = id p := by
      intro p hp
      have hpl : p ∈ l := List.mem_of_mem_filter hp
      have hgl : getLabel l p.1 = p.2 := by
        unfold getLabel
        rw [lookupKey_eq_some_of_mem hnd hpl, Option.getD_some]
      simp [Function.comp, hgl]
    rw [List.map_congr_left h3, List.map_id]
    exact List.filter_congr (fun a _ => by simp [Function.comp])
  have h4 : l.filter (fun p => !decide (p.1 = jobS)) =
      l.filter (fun p => decide (p.1 ≠ jobS)) :=
    List.filter_congr (fun a _ => by simp)
  have h5 : l.Perm ((jobS, jv) ::
      l.filter (fun p => decide (p.1 ≠ jobS))) := by
    have hfa := List.filter_append_perm (fun p => decide (p.1 = jobS)) l
    rw [filter_job_single hnd hj, h4] at hfa
    exact hfa.symm
  exact h5.trans (List.Perm.cons _ ((h1.trans (h2 ▸ List.Perm.refl _)).symm))

/-- C4 amended: Key is injective on label sets containing the job label,
with distinct label names, whose names and values do not contain the
separator: equal keys force the label sets to contain the same pairs.
Without the separator-freedom restriction the claim is false
(see the counterexample). -/
theorem key_injective_slashfree (l1 l2 : Labels) (m1 m2 : Metrics)
    (hnd1 : (l1.map Prod.fst).Nodup) (hnd2 : (l2.map Prod.fst).Nodup)
    (hfree1 : ∀ p ∈ l1, SlashFree p.1 ∧ SlashFree p.2)
    (hfree2 : ∀ p ∈ l2, SlashFree p.1 ∧ SlashFree p.2)
    (hj1 : (lookupKey jobS l1).isSome = true)
    (hj2 : (lookupKey jobS l2).isSome = true)
    (hk : MetricsGroup.Key ⟨l1, m1⟩ = MetricsGroup.Key ⟨l2, m2⟩) :
    l1.Perm l2 := by
  obtain ⟨jv1, hjv1⟩ := Option.isSome_iff_exists.mp hj1
  obtain ⟨jv2, hjv2⟩ := Option.isSome_iff_exists.mp hj2
  have hk1 : MetricsGroup.Key ⟨l1, m1⟩ =
      some (slashJoin (keyParts l1 jv1)) := by
    unfold MetricsGroup.Key
    rw [show lookupKey jobS
      ((⟨l1, m1⟩ : MetricsGroup)).Labels = some jv1 from hjv1]
  have hk2 : MetricsGroup.Key ⟨l2, m2⟩ =
      some (slashJoin (keyParts l2 jv2)) := by
    unfold MetricsGroup.Key
    rw [show lookupKey jobS
      ((⟨l2, m2⟩ : MetricsGroup)).Labels = some jv2 from hjv2]
  rw [hk1, hk2] at hk
  injection hk with hk
  have hparts : keyParts l1 jv1 = keyParts l2 jv2 :=
    slashJoin_inj (by simp [keyParts]) (by simp [keyParts])
      (keyParts_slashFree hfree1 hjv1) (keyParts_slashFree hfree2 hjv2) hk
  unfold keyParts at hparts
  injection hparts with h0 hparts
  injection hparts with hjv hparts
  have hpairs := interleavePairs_inj _ _ hparts
  have hc1 := canonical_perm hnd1 hjv1
  have hc2 := canonical_perm hnd2 hjv2
  rw [hjv, hpairs] at hc1
  exact hc1.trans hc2.symm

/-- Witness for the amended C4: concrete separator-free label sets with
equal keys are permutations of each other. -/
theorem key_injective_slashfree_witness :
    List.Perm [(jobS, ['a']), (instanceS, ['b'])]
      [(instanceS, ['b']), (jobS, ['a'])] :=
  key_injective_slashfree [(jobS, ['a']), (instanceS, ['b'])]
    [(instanceS, ['b']), (jobS, ['a'])] [] []
    (by decide) (by decide) (by decide) (by decide)
    (by decide) (by decide) (by decide)

/-- The metric names removed before computing the representative
heartbeat timestamp (main). -/
def filteredNames : List Str := [upS, pushTimeS, pushFailureTimeS]

/-- A side-effecting request the reconciliation loop issues against the
Pushgateway client: Delete on retention expiry, Upset on a verdict
change. -/
inductive ClientAction where
  | delete (key : Str)
  | upset (key : Str) (up : Bool)
deriving DecidableEq

/-- The mutable data of one tick of the reconciliation loop in main: the
states map, the receivedKeys slice and the actions issued so far. -/
structure TickState where
  states : List (Str × GroupState)
  receivedKeys : List Str
  actions : List ClientAction
deriving DecidableEq

/-- Go map assignment m[k] = v: replace the binding if present,
otherwise add it. -/
def insertKey {β : Type} (k : Str) (v : β) :
    List (Str × β) → List (Str × β)
  | [] => [(k, v)]
  | (k', v') :: rest =>
    if k' = k then (k, v) :: rest else (k', v') :: insertKey k v rest

/-- Go map deletion delete(m, k). -/
def eraseKey {β : Type} (k : Str) : List (Str × β) → List (Str × β)
  | [] => []
  | (k', v) :: rest =>
    if k' = k then eraseKey k rest else (k', v) :: eraseKey k rest

/-- One iteration of the group loop in main: skip groups whose label
names do not match job/instance, record the key as received, compute the
minimum timestamp of the filtered metrics, then create, expire or update
the group state, collecting the client calls as actions. `now` is the
tick instant and `exp` the expiration cutoff now - groupTTL. -/
def processGroup (now exp : Int) (acc : TickState) (g : MetricsGroup) :
    TickState :=
  if g.LabelNamesMatch [jobS, instanceS] = false then acc
  else
    match g.Key with
    | none => acc
    | some key =>
      let received := acc.receivedKeys ++ [key]
      let metrics := Metrics.Filter g.Metrics filteredNames
      let timestamp := Metrics.MinTimestamp metrics
      match lookupKey key acc.states with
      | none =>
        { acc with
          states := insertKey key (NewGroupState timestamp) acc.states,
          receivedKeys := received }
      | some state =>
        if Metrics.MaxTimestamp g.Metrics < exp then
          { acc with
            states := eraseKey key acc.states,
            receivedKeys := received,
            actions := acc.actions ++ [ClientAction.delete key] }
        else
          let r := state.Update timestamp now
          if r.2 then
            { acc with
              states := insertKey key r.1 acc.states,
              receivedKeys := received,
              actions := acc.actions ++
                [ClientAction.upset key (r.1.IsUp now)] }
          else
            { acc with
              states := insertKey key r.1 acc.states,
              receivedKeys := received }

/-- One tick of the reconciliation loop in main: process every observed
group, then drop every state whose key was not received this tick (with
no action emitted for those). -/
def tick (states : List (Str × GroupState)) (groups : List MetricsGroup)
    (now ttl : Int) : TickState :=
  let exp := now - ttl
  let acc := groups.foldl (processGroup now exp)
    { states := states, receivedKeys := [], actions := [] }
  { acc with
    states := acc.states.filter
      (fun p => decide (p.1 ∈ acc.receivedKeys)) }

/-- A group addresses key k in a tick: its label names match the tracked
job/instance shape and its derived key is k. -/
def Touches (g : MetricsGroup) (k : Str) : Prop :=
  g.LabelNamesMatch [jobS, instanceS] = true ∧ g.Key = some k

theorem lookupKey_insertKey_self {β : Type} (k : Str) (v : β)
    (l : List (Str × β)) : lookupKey k (insertKey k v l) = some v := by
  induction l with
  | nil => simp [insertKey, lookupKey]
  | cons p rest ih =>
    obtain ⟨k', v'⟩ := p
    by_cases h : k' = k
    · simp [insertKey, h, lookupKey]
    · simp [insertKey, h, lookupKey, ih]

theorem lookupKey_insertKey_ne {β : Type} {k k' : Str} (v : β)
    (l : List (Str × β)) (h : k' ≠ k) :
    lookupKey k (insertKey k' v l) = lookupKey k l := by
  induction l with
  | nil => simp [insertKey, lookupKey, h]
  | cons p rest ih =>
    obtain ⟨k'', v''⟩ := p
    by_cases h2 : k'' = k'
    · subst h2
      simp [insertKey, lookupKey, h, ih]
    · simp only [insertKey, if_neg h2, lookupKey]
      by_cases h3 : k'' = k <;> simp [h3, ih]

theorem lookupKey_eraseKey_self {β : Type} (k : Str)
    (l : List (Str × β)) : lookupKey k (eraseKey k l) = none := by
  induction l with
  | nil => rfl
  | cons p rest ih =>
    obtain ⟨k', v⟩ := p
    by_cases h : k' = k
    · simp [eraseKey, h, ih]
    · simp [eraseKey, h, lookupKey, ih]

theorem lookupKey_eraseKey_ne {β : Type} {k k' : Str}
    (l : List (Str × β)) (h : k' ≠ k) :
    lookupKey k (eraseKey k' l) = lookupKey k l := by
  induction l with
  | nil => rfl
  | cons p rest ih =>
    obtain ⟨k'', v⟩ := p
    by_cases h2 : k'' = k'
    · subst h2
      have h3 : k'' ≠ k := h
      simp [eraseKey, lookupKey, h3, ih]
    · have h4 : k ≠ k' := fun e => h e.symm
      by_cases h3 : k'' = k <;>
        simp [eraseKey, lookupKey, h2, h3, h4, ih]

theorem lookupKey_filter_mem {l : List (Str × GroupState)}
    {recv : List Str} {k : Str} (h : k ∈ recv) :
    lookupKey k (l.filter (fun p => decide (p.1 ∈ recv))) =
      lookupKey k l := by
  induction l with
  | nil => rfl
  | cons p rest ih =>
    obtain ⟨k', v⟩ := p
    by_cases h2 : k' = k
    · subst h2
      simp [List.filter_cons, h, lookupKey, ih]
    · by_cases h3 : k' ∈ recv <;>
        simp [List.filter_cons, h3, lookupKey, h2, ih]

theorem lookupKey_filter_not_mem {l : List (Str × GroupState)}
    {recv : List Str} {k : Str} (h : k ∉ recv) :
    lookupKey k (l.filter (fun p => decide (p.1 ∈ recv))) = none := by
  rw [lookupKey_eq_none_iff]
  intro hm
  obtain ⟨p, hp, he⟩ := List.mem_map.mp hm
  have := List.of_mem_filter hp
  rw [he] at this
  exact h (by simpa using this)

theorem processGroup_eq_skip (now exp : Int) {acc : TickState}
    {g : MetricsGroup}
    (hm : g.LabelNamesMatch [jobS, instanceS] = false) :
    processGroup now exp acc g = acc := by
  unfold processGroup
  rw [if_pos hm]

theorem processGroup_eq_create (now exp : Int) {acc : TickState}
    {g : MetricsGroup} {key : Str}
    (hm : g.LabelNamesMatch [jobS, instanceS] = true)
    (hk : g.Key = some key)
    (hlk : lookupKey key acc.states = none) :
    processGroup now exp acc g =
      { acc with
        states := insertKey key (NewGroupState (Metrics.MinTimestamp
          (Metrics.Filter g.Metrics filteredNames))) acc.states,
        receivedKeys := acc.receivedKeys ++ [key] } := by
  unfold processGroup
  simp [hm, hk, hlk]

theorem processGroup_eq_expire (now exp : Int) {acc : TickState}
    {g : MetricsGroup} {key : Str} {st : GroupState}
    (hm : g.LabelNamesMatch [jobS, instanceS] = true)
    (hk : g.Key = some key)
    (hlk : lookupKey key acc.states = some st)
    (hexp : Metrics.MaxTimestamp g.Metrics < exp) :
    processGroup now exp acc g =
      { acc with
        states := eraseKey key acc.states,
        receivedKeys := acc.receivedKeys ++ [key],
        actions := acc.actions ++ [ClientAction.delete key] } := by
  unfold processGroup
  simp [hm, hk, hlk, hexp]

theorem processGroup_eq_update (now exp : Int) {acc : TickState}
    {g : MetricsGroup} {key : Str} {st : GroupState}
    (hm : g.LabelNamesMatch [jobS, instanceS] = true)
    (hk : g.Key = some key)
    (hlk : lookupKey key acc.states = some st)
    (hexp : ¬ Metrics.MaxTimestamp g.Metrics < exp) :
    processGroup now exp acc g =
      (if (st.Update (Metrics.MinTimestamp
            (Metrics.Filter g.Metrics filteredNames)) now).2 then
        { acc with
          states := insertKey key (st.Update (Metrics.MinTimestamp
            (Metrics.Filter g.Metrics filteredNames)) now).1 acc.states,
          receivedKeys := acc.receivedKeys ++ [key],
          actions := acc.actions ++ [ClientAction.upset key
            ((st.Update (Metrics.MinTimestamp
              (Metrics.Filter g.Metrics filteredNames)) now).1.IsUp now)] }
      else
        { acc with
          states := insertKey key (st.Update (Metrics.MinTimestamp
            (Metrics.Filter g.Metrics filteredNames)) now).1 acc.states,
          receivedKeys := acc.receivedKeys ++ [key] }) := by
  unfold processGroup
  simp [hm, hk, hlk, hexp]

theorem processGroup_untouched (now exp : Int) (acc : TickState)
    (g : MetricsGroup) (k : Str) (h : ¬ Touches g k) :
    lookupKey k (processGroup now exp acc g).states =
      lookupKey k acc.states ∧
    (k ∈ (processGroup now exp acc g).receivedKeys ↔
      k ∈ acc.receivedKeys) ∧
    (processGroup now exp acc g).actions.count (ClientAction.delete k) =
      acc.actions.count (ClientAction.delete k) ∧
    (∀ b, ClientAction.upset k b ∈ (processGroup now exp acc g).actions ↔
      ClientAction.upset k b ∈ acc.actions) := by
  by_cases hm : g.LabelNamesMatch [jobS, instanceS] = false
  · rw [processGroup_eq_skip now exp hm]
    exact ⟨rfl, Iff.rfl, rfl, fun b => Iff.rfl⟩
  · have hm' : g.LabelNamesMatch [jobS, instanceS] = true := by
      cases hb : g.LabelNamesMatch [jobS, instanceS]
      · exact absurd hb hm
      · rfl
    cases hk : g.Key with
    | none =>
      have : processGroup now exp acc g = acc := by
        unfold processGroup
        simp [hm', hk]
      rw [this]
      exact ⟨rfl, Iff.rfl, rfl, fun b => Iff.rfl⟩
    | some key =>
      have hne : key ≠ k := fun e => h ⟨hm', by rw [hk, e]⟩
      have hne' : k ≠ key := fun e => hne e.symm
      have hrecv : k ∈ acc.receivedKeys ++ [key] ↔
          k ∈ acc.receivedKeys := by
        simp [hne']
      cases hlk : lookupKey key acc.states with
      | none =>
        rw [processGroup_eq_create now exp hm' hk hlk]
        exact ⟨lookupKey_insertKey_ne _ acc.states hne, hrecv, rfl,
          fun b => Iff.rfl⟩
      | some st =>
        by_cases hexp : Metrics.MaxTimestamp g.Metrics < exp
        · rw [processGroup_eq_expire now exp hm' hk hlk hexp]
          refine ⟨lookupKey_eraseKey_ne acc.states hne, hrecv, ?_, ?_⟩
          · rw [List.count_append]
            simp [List.count_cons, hne]
          · intro b
            simp [hne']
        · rw [processGroup_eq_update now exp hm' hk hlk hexp]
          cases hch : (st.Update (Metrics.MinTimestamp
              (Metrics.Filter g.Metrics filteredNames)) now).2
          · rw [if_neg (by simp)]
            exact ⟨lookupKey_insertKey_ne _ acc.states hne, hrecv, rfl,
              fun b => Iff.rfl⟩
          · rw [if_pos rfl]
            refine ⟨lookupKey_insertKey_ne _ acc.states hne, hrecv, ?_, ?_⟩
            · rw [List.count_append]
              simp [List.count_cons]
            · intro b
              simp [hne']

theorem foldl_untouched (now exp : Int) (k : Str) :
    ∀ (gs : List MetricsGroup) (acc : TickState),
      (∀ g ∈ gs, ¬ Touches g k) →
      lookupKey k ((gs.foldl (processGroup now exp) acc).states) =
        lookupKey k acc.states ∧
      (k ∈ (gs.foldl (processGroup now exp) acc).receivedKeys ↔
        k ∈ acc.receivedKeys) ∧
      ((gs.foldl (processGroup now exp) acc).actions.count
        (ClientAction.delete k) =
        acc.actions.count (ClientAction.delete k)) ∧
      (∀ b, ClientAction.upset k b ∈
          (gs.foldl (processGroup now exp) acc).actions ↔
        ClientAction.upset k b ∈ acc.actions) := by
  intro gs
  induction gs with
  | nil => exact fun acc _ => ⟨rfl, Iff.rfl, rfl, fun b => Iff.rfl⟩
  | cons g gs ih =>
    intro acc h
    have h1 := processGroup_untouched now exp acc g k
      (h g (List.mem_cons_self _ _))
    have h2 := ih (processGroup now exp acc g)
      (fun x hx => h x (List.mem_cons_of_mem _ hx))
    rw [List.foldl_cons]
    exact ⟨h2.1.trans h1.1, h2.2.1.trans h1.2.1,
      h2.2.2.1.trans h1.2.2.1,
      fun b => (h2.2.2.2 b).trans (h1.2.2.2 b)⟩

theorem tick_states_eq (states : List (Str × GroupState))
    (groups : List MetricsGroup) (now ttl : Int) :
    (tick states groups now ttl).states =
      ((groups.foldl (processGroup now (now - ttl))
        ⟨states, [], []⟩).states).filter
        (fun p => decide (p.1 ∈ (groups.foldl
          (processGroup now (now - ttl))
          ⟨states, [], []⟩).receivedKeys)) := rfl

theorem tick_actions_eq (states : List (Str × GroupState))
    (groups : List MetricsGroup) (now ttl : Int) :
    (tick states groups now ttl).actions =
      (groups.foldl (processGroup now (now - ttl))
        ⟨states, [], []⟩).actions := rfl

theorem tick_split_facts {now ttl : Int} {k : Str}
    (states : List (Str × GroupState)) (pre post : List MetricsGroup)
    (g : MetricsGroup) (A B : TickState)
    (hpre : ∀ x ∈ pre, ¬ Touches x k)
    (hpost : ∀ x ∈ post, ¬ Touches x k)
    (hA : pre.foldl (processGroup now (now - ttl))
      ⟨states, [], []⟩ = A)
    (hB : processGroup now (now - ttl) A g = B) :
    lookupKey k A.states = lookupKey k states ∧
    k ∉ A.receivedKeys ∧
    A.actions.count (ClientAction.delete k) = 0 ∧
    (∀ b, ClientAction.upset k b ∉ A.actions) ∧
    (k ∈ B.receivedKeys →
      lookupKey k (tick states (pre ++ g :: post) now ttl).states =
        lookupKey k B.states) ∧
    (tick states (pre ++ g :: post) now ttl).actions.count
      (ClientAction.delete k) =
      B.actions.count (ClientAction.delete k) ∧
    (∀ b, ClientAction.upset k b ∈
        (tick states (pre ++ g :: post) now ttl).actions ↔
      ClientAction.upset k b ∈ B.actions) := by
  have hApre := foldl_untouched now (now - ttl) k pre
    (⟨states, [], []⟩ : TickState) hpre
  rw [hA] at hApre
  have hCpost := foldl_untouched now (now - ttl) k post B hpost
  have hfold : (pre ++ g :: post).foldl
      (processGroup now (now - ttl)) ⟨states, [], []⟩ =
      post.foldl (processGroup now (now - ttl)) B := by
    rw [List.foldl_append, List.foldl_cons, hA, hB]
  refine ⟨hApre.1, ?_, ?_, ?_, ?_, ?_, ?_⟩
  · intro hmem
    exact absurd (hApre.2.1.mp hmem) (by simp)
  · exact hApre.2.2.1.trans rfl
  · intro b hb
    have := (hApre.2.2.2 b).mp hb
    simp at this
  · intro hmem
    rw [tick_states_eq, hfold]
    rw [lookupKey_filter_mem (hCpost.2.1.mpr hmem)]
    exact hCpost.1
  · rw [tick_actions_eq, hfold]
    exact hCpost.2.2.1
  · intro b
    rw [tick_actions_eq, hfold]
    exact hCpost.2.2.2 b

/-- C5: within one tick, (a) a key addressed by no valid observed group
(in particular a tracked identity absent from the snapshot) is absent
from the final states map and gets neither a delete nor an upset action;
(b) a received tracked group with an existing detector whose unfiltered
maximum timestamp is older than now - ttl is removed from the map,
exactly one delete action is emitted for its key, and no upset action is
emitted for it — its detector is not updated. -/
theorem reconcile_remove_expire_spec
    (states : List (Str × GroupState)) (now ttl : Int) (k : Str) :
    (∀ groups : List MetricsGroup,
      (∀ g ∈ groups, ¬ Touches g k) →
      lookupKey k (tick states groups now ttl).states = none ∧
      (tick states groups now ttl).actions.count
        (ClientAction.delete k) = 0 ∧
      (∀ b, ClientAction.upset k b ∉
        (tick states groups now ttl).actions)) ∧
    (∀ (pre post : List MetricsGroup) (g : MetricsGroup)
        (st : GroupState),
      (∀ x ∈ pre, ¬ Touches x k) → (∀ x ∈ post, ¬ Touches x k) →
      Touches g k → lookupKey k states = some st →
      Metrics.MaxTimestamp g.Metrics < now - ttl →
      lookupKey k (tick states (pre ++ g :: post) now ttl).states =
        none ∧
      (tick states (pre ++ g :: post) now ttl).actions.count
        (ClientAction.delete k) = 1 ∧
      (∀ b, ClientAction.upset k b ∉
        (tick states (pre ++ g :: post) now ttl).actions)) := by
  constructor
  · intro groups hng
    have hF := foldl_untouched now (now - ttl) k groups
      ⟨states, [], []⟩ hng
    refine ⟨?_, ?_, ?_⟩
    · rw [tick_states_eq]
      apply lookupKey_filter_not_mem
      intro hmem
      exact absurd (hF.2.1.mp hmem) (by simp)
    · rw [tick_actions_eq]
      exact hF.2.2.1.trans rfl
    · intro b hb
      rw [tick_actions_eq] at hb
      have := (hF.2.2.2 b).mp hb
      simp at this
  · intro pre post g st hpre hpost hg hst hexp
    obtain ⟨hm, hk⟩ := hg
    have hA : pre.foldl (processGroup now (now - ttl))
        (⟨states, [], []⟩ : TickState) =
        pre.foldl (processGroup now (now - ttl)) ⟨states, [], []⟩ := rfl
    have hsf := tick_split_facts states pre post g _ _ hpre hpost hA rfl
    obtain ⟨hA1, hA2, hA3, hA4, hT1, hT2, hT3⟩ := hsf
    have hlkA : lookupKey k (pre.foldl (processGroup now (now - ttl))
        (⟨states, [], []⟩ : TickState)).states = some st :=
      hA1.trans hst
    have hB := processGroup_eq_expire now (now - ttl) hm hk hlkA hexp
    rw [hB] at hT1 hT2 hT3
    refine ⟨?_, ?_, ?_⟩
    · rw [hT1 (by simp)]
      exact lookupKey_eraseKey_self k _
    · rw [hT2, List.count_append, hA3]
      simp
    · intro b hb
      have hmem := (hT3 b).mp hb
      rcases List.mem_append.mp hmem with hmem | hmem
      · exact hA4 b hmem
      · simp at hmem

/-- C6: the timestamp handed to the detector — both when seeding a new
one and when updating an existing one — is the minimum timestamp of the
group's metrics after removing up, push_time_seconds and
push_failure_time_seconds (filteredNames), while the retention-expiry
comparison uses the maximum timestamp of the full unfiltered metric
set. -/
theorem representative_timestamp_spec
    (states : List (Str × GroupState)) (now ttl : Int) (k : Str)
    (pre post : List MetricsGroup) (g : MetricsGroup)
    (hpre : ∀ x ∈ pre, ¬ Touches x k)
    (hpost : ∀ x ∈ post, ¬ Touches x k)
    (hg : Touches g k) :
    filteredNames = [upS, pushTimeS, pushFailureTimeS] ∧
    (lookupKey k states = none →
      lookupKey k (tick states (pre ++ g :: post) now ttl).states =
        some (NewGroupState (Metrics.MinTimestamp
          (Metrics.Filter g.Metrics filteredNames)))) ∧
    (∀ st, lookupKey k states = some st →
      ¬ Metrics.MaxTimestamp g.Metrics < now - ttl →
      lookupKey k (tick states (pre ++ g :: post) now ttl).states =
        some ((st.Update (Metrics.MinTimestamp
          (Metrics.Filter g.Metrics filteredNames)) now).1)) ∧
    (∀ st, lookupKey k states = some st →
      Metrics.MaxTimestamp g.Metrics < now - ttl →
      lookupKey k (tick states (pre ++ g :: post) now ttl).states =
        none) := by
  obtain ⟨hm, hk⟩ := hg
  have hA : pre.foldl (processGroup now (now - ttl))
      (⟨states, [], []⟩ : TickState) =
      pre.foldl (processGroup now (now - ttl)) ⟨states, [], []⟩ := rfl
  refine ⟨rfl, ?_, ?_, ?_⟩
  · intro habs
    obtain ⟨hA1, hA2, hA3, hA4, hT1, hT2, hT3⟩ :=
      tick_split_facts states pre post g _ _ hpre hpost hA rfl
    have hlkA : lookupKey k (pre.foldl (processGroup now (now - ttl))
        (⟨states, [], []⟩ : TickState)).states = none := hA1.trans habs
    have hB := processGroup_eq_create now (now - ttl) hm hk hlkA
    rw [hB] at hT1
    rw [hT1 (by simp)]
    exact lookupKey_insertKey_self k _ _
  · intro st hst hnexp
    obtain ⟨hA1, hA2, hA3, hA4, hT1, hT2, hT3⟩ :=
      tick_split_facts states pre post g _ _ hpre hpost hA rfl
    have hlkA : lookupKey k (pre.foldl (processGroup now (now - ttl))
        (⟨states, [], []⟩ : TickState)).states = some st :=
      hA1.trans hst
    have hB := processGroup_eq_update now (now - ttl) hm hk hlkA hnexp
    rw [hB] at hT1
    cases hch : (st.Update (Metrics.MinTimestamp
        (Metrics.Filter g.Metrics filteredNames)) now).2
    · rw [hch, if_neg (by simp)] at hT1
      rw [hT1 (by simp)]
      exact lookupKey_insertKey_self k _ _
    · rw [hch, if_pos rfl] at hT1
      rw [hT1 (by simp)]
      exact lookupKey_insertKey_self k _ _
  · intro st hst hexp
    obtain ⟨hA1, hA2, hA3, hA4, hT1, hT2, hT3⟩ :=
      tick_split_facts states pre post g _ _ hpre hpost hA rfl
    have hlkA : lookupKey k (pre.foldl (processGroup now (now - ttl))
        (⟨states, [], []⟩ : TickState)).states = some st :=
      hA1.trans hst
    have hB := processGroup_eq_expire now (now - ttl) hm hk hlkA hexp
    rw [hB] at hT1
    rw [hT1 (by simp)]
    exact lookupKey_eraseKey_self k _

/-- C8: a valid observed group whose key is absent from the states map
leads to a fresh detector, seeded with the representative timestamp and
carrying timeout 0 and up false, being inserted into the map; no action
and no verdict is emitted for that key this tick. -/
theorem group_added_spec
    (states : List (Str × GroupState)) (now ttl : Int) (k : Str)
    (pre post : List MetricsGroup) (g : MetricsGroup)
    (hpre : ∀ x ∈ pre, ¬ Touches x k)
    (hpost : ∀ x ∈ post, ¬ Touches x k)
    (hg : Touches g k) (habs : lookupKey k states = none) :
    lookupKey k (tick states (pre ++ g :: post) now ttl).states =
      some (NewGroupState (Metrics.MinTimestamp
        (Metrics.Filter g.Metrics filteredNames))) ∧
    (NewGroupState (Metrics.MinTimestamp
      (Metrics.Filter g.Metrics filteredNames))).timestamp =
      Metrics.MinTimestamp (Metrics.Filter g.Metrics filteredNames) ∧
    (NewGroupState (Metrics.MinTimestamp
      (Metrics.Filter g.Metrics filteredNames))).timeout = 0 ∧
    (NewGroupState (Metrics.MinTimestamp
      (Metrics.Filter g.Metrics filteredNames))).up = false ∧
    (tick states (pre ++ g :: post) now ttl).actions.count
      (ClientAction.delete k) = 0 ∧
    (∀ b, ClientAction.upset k b ∉
      (tick states (pre ++ g :: post) now ttl).actions) := by
  obtain ⟨hm, hk⟩ := hg
  have hA : pre.foldl (processGroup now (now - ttl))
      (⟨states, [], []⟩ : TickState) =
      pre.foldl (processGroup now (now - ttl)) ⟨states, [], []⟩ := rfl
  obtain ⟨hA1, hA2, hA3, hA4, hT1, hT2, hT3⟩ :=
    tick_split_facts states pre post g _ _ hpre hpost hA rfl
  have hlkA : lookupKey k (pre.foldl (processGroup now (now - ttl))
      (⟨states, [], []⟩ : TickState)).states = none := hA1.trans habs
  have hB := processGroup_eq_create now (now - ttl) hm hk hlkA
  rw [hB] at hT1 hT2 hT3
  refine ⟨?_, rfl, rfl, rfl, ?_, ?_⟩
  · rw [hT1 (by simp)]
    exact lookupKey_insertKey_self k _ _
  · exact hT2.trans hA3
  · intro b hb
    exact hA4 b ((hT3 b).mp hb)

theorem labelNamesMatch_iff {g : MetricsGroup}
    (hnd : (g.Labels.map Prod.fst).Nodup) :
    g.LabelNamesMatch [jobS, instanceS] = true ↔
      (g.Labels.map Prod.fst).toFinset =
        ({jobS, instanceS} : Finset Str) := by
  have hji : jobS ≠ instanceS := by decide
  unfold MetricsGroup.LabelNamesMatch
  rw [Bool.and_eq_true]
  constructor
  · rintro ⟨hall, hlen⟩
    rw [List.all_eq_true] at hall
    have hj : jobS ∈ g.Labels.map Prod.fst :=
      (lookupKey_isSome_iff _ _).mp (hall jobS (by simp))
    have hi : instanceS ∈ g.Labels.map Prod.fst :=
      (lookupKey_isSome_iff _ _).mp (hall instanceS (by simp))
    have hsub : ({jobS, instanceS} : Finset Str) ⊆
        (g.Labels.map Prod.fst).toFinset := by
      intro x hx
      rcases Finset.mem_insert.mp hx with rfl | hx
      · exact List.mem_toFinset.mpr hj
      · rw [Finset.mem_singleton] at hx
        subst hx
        exact List.mem_toFinset.mpr hi
    have hlen' : g.Labels.length = 2 := by simpa using hlen
    have hcard : (g.Labels.map Prod.fst).toFinset.card = 2 := by
      rw [List.toFinset_card_of_nodup hnd, List.length_map]
      exact hlen'
    refine (Finset.eq_of_subset_of_card_le hsub ?_).symm
    rw [hcard, Finset.card_pair hji]
  · intro heq
    constructor
    · rw [List.all_eq_true]
      intro x hx
      have hxf : x ∈ (g.Labels.map Prod.fst).toFinset := by
        rw [heq]
        rcases List.mem_cons.mp hx with rfl | hx
        · exact Finset.mem_insert_self _ _
        · rcases List.mem_cons.mp hx with rfl | hx
          · exact Finset.mem_insert.mpr (Or.inr (Finset.mem_singleton_self _))
          · simp at hx
      exact (lookupKey_isSome_iff _ _).mpr (List.mem_toFinset.mp hxf)
    · have hcard : (g.Labels.map Prod.fst).toFinset.card = 2 := by
        rw [heq, Finset.card_pair hji]
      rw [List.toFinset_card_of_nodup hnd, List.length_map] at hcard
      simpa using hcard

/-- C9: an observed group whose label-name set is not exactly
{job, instance} — a strict set-equality check, so missing or extra names
both fail — is skipped entirely by the tick: the tick result with the
group present equals the tick result without it, so no identity is
recorded, no detector is created or updated, and no action is
emitted. -/
theorem shape_mismatch_skipped
    (states : List (Str × GroupState)) (now ttl : Int)
    (pre post : List MetricsGroup) (g : MetricsGroup)
    (hnd : (g.Labels.map Prod.fst).Nodup)
    (hne : (g.Labels.map Prod.fst).toFinset ≠
      ({jobS, instanceS} : Finset Str)) :
    tick states (pre ++ g :: post) now ttl =
      tick states (pre ++ post) now ttl := by
  have hm : g.LabelNamesMatch [jobS, instanceS] = false := by
    cases hb : g.LabelNamesMatch [jobS, instanceS]
    · rfl
    · exact absurd ((labelNamesMatch_iff hnd).mp hb) hne
  have hfold : (pre ++ g :: post).foldl (processGroup now (now - ttl))
      (⟨states, [], []⟩ : TickState) =
      (pre ++ post).foldl (processGroup now (now - ttl))
      (⟨states, [], []⟩ : TickState) := by
    rw [List.foldl_append, List.foldl_append, List.foldl_cons,
      processGroup_eq_skip now (now - ttl) hm]
  simp only [tick]
  rw [hfold]

instance (g : MetricsGroup) (k : Str) : Decidable (Touches g k) :=
  inferInstanceAs (Decidable (_ ∧ _))

/-- A concrete valid observed group used by the tick witnesses. -/
def gW : MetricsGroup :=
  ⟨[(jobS, ['a']), (instanceS, ['b'])], [(['m'], ⟨50⟩)]⟩

/-- The key derived from gW. -/
def kW : Str := ['j', 'o', 'b', '/', 'a', '/'] ++ instanceS ++ ['/', 'b']

/-- A malformed group carrying a third label, for the C9 witness. -/
def gBadW : MetricsGroup :=
  ⟨[(jobS, ['a']), (instanceS, ['b']), (['x'], ['c'])], []⟩

/-- Witness for C5 on concrete data: a key no observed group addresses
is dropped with no actions, and a stale received group is dropped with
exactly one delete and no upset. -/
theorem reconcile_remove_expire_spec_witness :
    (lookupKey ['x'] (tick [(['x'], ⟨false, 5, 0⟩)] [gW] 100 10).states =
      none ∧
     (tick [(['x'], ⟨false, 5, 0⟩)] [gW] 100 10).actions.count
       (ClientAction.delete ['x']) = 0 ∧
     (∀ b, ClientAction.upset ['x'] b ∉
       (tick [(['x'], ⟨false, 5, 0⟩)] [gW] 100 10).actions)) ∧
    (lookupKey kW
      (tick [(kW, ⟨false, 5, 0⟩)] ([] ++ gW :: []) 100 10).states =
        none ∧
     (tick [(kW, ⟨false, 5, 0⟩)] ([] ++ gW :: []) 100 10).actions.count
       (ClientAction.delete kW) = 1 ∧
     (∀ b, ClientAction.upset kW b ∉
       (tick [(kW, ⟨false, 5, 0⟩)] ([] ++ gW :: []) 100 10).actions)) :=
  ⟨(reconcile_remove_expire_spec [(['x'], ⟨false, 5, 0⟩)] 100 10 ['x']).1
      [gW] (by decide),
   (reconcile_remove_expire_spec [(kW, ⟨false, 5, 0⟩)] 100 10 kW).2
      [] [] gW ⟨false, 5, 0⟩ (by decide) (by decide) (by decide)
      (by decide) (by decide)⟩

/-- Witness for C6 on concrete data: seeding and updating use the
filtered minimum timestamp, expiry uses the unfiltered maximum. -/
theorem representative_timestamp_spec_witness :
    lookupKey kW (tick [] ([] ++ gW :: []) 60 100).states =
      some (NewGroupState (Metrics.MinTimestamp
        (Metrics.Filter gW.Metrics filteredNames))) ∧
    lookupKey kW
      (tick [(kW, ⟨false, 5, 0⟩)] ([] ++ gW :: []) 60 100).states =
      some (((⟨false, 5, 0⟩ : GroupState).Update (Metrics.MinTimestamp
        (Metrics.Filter gW.Metrics filteredNames)) 60).1) ∧
    lookupKey kW
      (tick [(kW, ⟨false, 5, 0⟩)] ([] ++ gW :: []) 100 10).states =
        none :=
  ⟨(representative_timestamp_spec [] 60 100 kW [] [] gW (by decide)
      (by decide) (by decide)).2.1 (by decide),
   (representative_timestamp_spec [(kW, ⟨false, 5, 0⟩)] 60 100 kW [] []
      gW (by decide) (by decide) (by decide)).2.2.1 ⟨false, 5, 0⟩
      (by decide) (by decide),
   (representative_timestamp_spec [(kW, ⟨false, 5, 0⟩)] 100 10 kW [] []
      gW (by decide) (by decide) (by decide)).2.2.2 ⟨false, 5, 0⟩
      (by decide) (by decide)⟩

/-- Witness for C8 on concrete data: a first-seen group is inserted as a
fresh zero-timeout, down detector and gets no action. -/
theorem group_added_spec_witness :
    lookupKey kW (tick [] ([] ++ gW :: []) 0 0).states =
      some (NewGroupState (Metrics.MinTimestamp
        (Metrics.Filter gW.Metrics filteredNames))) ∧
    (NewGroupState (Metrics.MinTimestamp
      (Metrics.Filter gW.Metrics filteredNames))).timeout = 0 ∧
    (NewGroupState (Metrics.MinTimestamp
      (Metrics.Filter gW.Metrics filteredNames))).up = false ∧
    (tick [] ([] ++ gW :: []) 0 0).actions.count
      (ClientAction.delete kW) = 0 ∧
    (∀ b, ClientAction.upset kW b ∉
      (tick [] ([] ++ gW :: []) 0 0).actions) :=
  ⟨(group_added_spec [] 0 0 kW [] [] gW (by decide) (by decide)
      (by decide) (by decide)).1,
   (group_added_spec [] 0 0 kW [] [] gW (by decide) (by decide)
      (by decide) (by decide)).2.2.1,
   (group_added_spec [] 0 0 kW [] [] gW (by decide) (by decide)
      (by decide) (by decide)).2.2.2.1,
   (group_added_spec [] 0 0 kW [] [] gW (by decide) (by decide)
      (by decide) (by decide)).2.2.2.2.1,
   (group_added_spec [] 0 0 kW [] [] gW (by decide) (by decide)
      (by decide) (by decide)).2.2.2.2.2⟩

/-- Witness for C9 on concrete data: a three-label group changes nothing
in the tick. -/
theorem shape_mismatch_skipped_witness :
    tick [] ([] ++ gBadW :: []) 0 0 = tick [] ([] ++ []) 0 0 :=
  shape_mismatch_skipped [] 0 0 [] [] gBadW (by decide) (by decide)
